import Mathlib

/-!
Shallow embedding of the core of `effective-palm-tree`:
the GitHub scraping subsystem (`src/task2_scraper`) and the ClickHouse
batch writer (`src/task3_clickhouse`), together with theorems settling
the frozen behavioural claims about them.

Conventions:
* Python dict fields that may be missing or `None` become `Option`.
* Python truthiness on strings ("", `None` are falsy) is `strTruthy`.
* Machine floats used as clock readings are embedded as `ℚ`.
* Fallible operations return `Except`/`Option` or carry an error component.
-/

/-! ## Data model: `src/task2_scraper/models.py` -/

/-- `models.py` lines 6-9: `RepositoryAuthorCommitsNum` dataclass.
Its two fields are `author` and `commits_num`. -/
structure RepositoryAuthorCommitsNum where
  author : String
  commits_num : ℕ
  deriving DecidableEq

/-- `models.py` lines 12-21: the `Repository` dataclass (with `slots=True`,
so any attribute outside this list raises `AttributeError`).  Note that it
does carry a `position` field. -/
structure Repository where
  name : String
  owner : String
  position : ℕ
  stars : ℕ
  watchers : ℕ
  forks : ℕ
  language : String
  authors_commits_num_today : List RepositoryAuthorCommitsNum
  deriving DecidableEq

/-- The declared field names of the `Repository` dataclass
(`models.py` lines 12-21).  With `slots=True` these are the only
attributes a `Repository` instance provides. -/
def repositoryFieldNames : List String :=
  ["name", "owner", "position", "stars", "watchers", "forks", "language",
   "authors_commits_num_today"]

/-- The declared field names of `RepositoryAuthorCommitsNum`
(`models.py` lines 6-9). -/
def authorCommitsFieldNames : List String :=
  ["author", "commits_num"]

/-! ## Raw commit records and author resolution
(`src/task2_scraper/github_scrapper.py` lines 127-150) -/

/-- The `commit["author"]` sub-object (a linked GitHub user): only its
`login` key is read. -/
structure CommitUser where
  login : Option String

/-- The `commit["commit"]["author"]` sub-object: its `name` and `email`
keys are read.  A missing nested dict is the all-`none` value. -/
structure CommitAuthorInfo where
  name : Option String
  email : Option String

/-- A raw commit record as consumed by `_extract_author`
(`github_scrapper.py` lines 139-150). -/
structure CommitRecord where
  author : Option CommitUser
  commit_author : CommitAuthorInfo

/-- Python truthiness of an optional string: `None` and `""` are falsy. -/
def strTruthy : Option String → Bool
  | none => false
  | some s => s != ""

/-- `github_scrapper.py` lines 139-150 (`_extract_author`):
`author = commit.get("author") or {}`; return `login` if truthy, else the
raw commit author's `name` if truthy, else its `email` (which may itself
be `None` or the empty string). -/
def extractAuthor (c : CommitRecord) : Option String :=
  let login := (c.author.getD { login := none }).login
  if strTruthy login then login
  else if strTruthy c.commit_author.name then c.commit_author.name
  else c.commit_author.email

/-- One `Counter` update `authors[author] += 1`
(`github_scrapper.py` line 133): an existing key is incremented in place
(insertion order preserved), a new key is appended with count 1.  This is
the documented behaviour of `collections.Counter` on an insertion-ordered
dict. -/
def counterAdd (acc : List (String × ℕ)) (a : String) : List (String × ℕ) :=
  if acc.any (fun p => p.1 == a) then
    acc.map (fun p => if p.1 == a then (p.1, p.2 + 1) else p)
  else acc ++ [(a, 1)]

/-- The body of the loop in `_aggregate_commits`
(`github_scrapper.py` lines 130-133): count the commit iff its extracted
author is truthy (`if author:` skips both `None` and `""`). -/
def countStep (acc : List (String × ℕ)) (c : CommitRecord) : List (String × ℕ) :=
  match extractAuthor c with
  | some a => if a ≠ "" then counterAdd acc a else acc
  | none => acc

/-- The `Counter`-building loop of `_aggregate_commits`
(`github_scrapper.py` lines 129-133). -/
def countAuthors (commits : List CommitRecord) : List (String × ℕ) :=
  commits.foldl countStep []

/-- One step of a stable descending-by-count insertion: the new pair goes
after every pair with count ≥ its own, before the first strictly smaller
one. -/
def insertByCount (acc : List (String × ℕ)) (p : String × ℕ) : List (String × ℕ) :=
  match acc with
  | [] => [p]
  | q :: rest => if p.2 ≤ q.2 then q :: insertByCount rest p else p :: q :: rest

/-- `Counter.most_common()` (`github_scrapper.py` line 136): CPython
implements it as `sorted(items, key=count, reverse=True)`, a stable sort
descending by count with ties in insertion order.  Inserting the items in
order with `insertByCount` realises exactly that ordering. -/
def mostCommon (acc : List (String × ℕ)) : List (String × ℕ) :=
  acc.foldl insertByCount []

/-- `github_scrapper.py` lines 127-137 (`_aggregate_commits`): count
commits per resolved author, then list them most-common-first as
`RepositoryAuthorCommitsNum` records. -/
def aggregateCommits (commits : List CommitRecord) : List RepositoryAuthorCommitsNum :=
  (mostCommon (countAuthors commits)).map (fun p => ⟨p.1, p.2⟩)

/-! ## Rate limiter (`src/task2_scraper/rate_limiter.py` lines 18-32)

`acquire` loops: under the lock it reads `now = loop.time()`, evicts
deque entries with `now - t >= period` from the front, and if fewer than
`rate` remain it appends `now` and returns (a grant); otherwise it
releases the lock, sleeps, and retries.  Since every read/mutation of the
deque happens inside the lock and `loop.time()` is monotone, a whole
execution is a sequence of atomic check-and-record attempts at
non-decreasing clock readings; each attempt either grants or not.  Clock
readings are embedded as `ℚ`. -/

/-- The eviction loop (`rate_limiter.py` lines 23-24): pop from the front
while `now - t ≥ period`. -/
def rlEvict (period now : ℚ) (ts : List ℚ) : List ℚ :=
  ts.dropWhile (fun t => decide (period ≤ now - t))

/-- One locked check-and-record attempt (`rate_limiter.py` lines 21-31):
evict, then grant (append `now`, return) iff fewer than `rate` timestamps
remain.  Returns the new deque and whether the attempt granted. -/
def rlAttempt (rate : ℕ) (period now : ℚ) (ts : List ℚ) : List ℚ × Bool :=
  if (rlEvict period now ts).length < rate then (rlEvict period now ts ++ [now], true)
  else (rlEvict period now ts, false)

/-- One attempt applied to the pair (deque, ghost grant history). -/
def rlStep (rate : ℕ) (period : ℚ) (st : List ℚ × List ℚ) (now : ℚ) : List ℚ × List ℚ :=
  ((rlAttempt rate period now st.1).1,
   if (rlAttempt rate period now st.1).2 then st.2 ++ [now] else st.2)

/-- Run a sequence of attempts (at the given clock readings) from the
initial empty deque; returns the final deque and the full grant history. -/
def rlRun (rate : ℕ) (period : ℚ) (times : List ℚ) : List ℚ × List ℚ :=
  times.foldl (rlStep rate period) ([], [])

/-- Number of grants falling in the trailing window `(t - period, t]`. -/
def windowCount (period t : ℚ) (gs : List ℚ) : ℕ :=
  (gs.filter (fun g => decide (t - period < g) && decide (g ≤ t))).length

/-! ## HTTP request classification
(`src/task2_scraper/github_scrapper.py` lines 59-76) -/

/-- The outcome of one `aiohttp` request attempt: either a response with
a status, reason message and (parsed) body, or a transport-level failure
(`aiohttp.ClientError`: connection, TLS, timeout). -/
inductive HttpAttemptResult (α : Type) where
  | response (status : ℕ) (message : String) (body : α)
  | transportFailure (message : String)

/-- The two domain error shapes `_make_request` produces: the
`ClientResponseError` branch (carries the response status in the message)
and the `ClientError` branch ("Network error ..."). -/
inductive ScraperError where
  | statusError (status : ℕ) (message : String)
  | networkError (message : String)
  deriving DecidableEq

/-- `github_scrapper.py` lines 59-76 (`_make_request`):
`response.raise_for_status()` raises `ClientResponseError` iff the status
is `≥ 400` (aiohttp semantics); that exception is re-raised as a domain
error carrying the status, and any other `ClientError` is re-raised as a
"Network error ..." domain error.  A response with status `< 400` has its
body returned unchanged. -/
def makeRequest (method url : String) : HttpAttemptResult α → Except ScraperError α
  | .response status message body =>
      if 400 ≤ status then
        let text := if message = "" then "GitHub API request failed" else message
        .error (.statusError status
          (method ++ " " ++ url ++ " failed with status " ++ toString status ++ ": " ++ text))
      else .ok body
  | .transportFailure _ =>
      .error (.networkError ("Network error during " ++ method ++ " " ++ url))

/-! ## Commit-history fetch and pagination
(`src/task2_scraper/github_scrapper.py` lines 88-104) -/

/-- A paginated server resource: page `i` of the result set, together
with the "next" cursor the server would supply alongside it. -/
structure PagedServer (α : Type) where
  pages : List (List α)

/-- One page request against the server: the items of page `cursor` and
the server-supplied "next" cursor (present iff more pages remain). -/
def requestPage (srv : PagedServer α) (cursor : ℕ) : List α × Option ℕ :=
  (srv.pages.getD cursor [],
   if cursor + 1 < srv.pages.length then some (cursor + 1) else none)

/-- `github_scrapper.py` lines 88-104 (`_get_repository_commits`): a
single `_make_request` to the commits endpoint with `per_page=100`; the
response (the first page of the result set) is returned as-is.  No
`Link`/"next" handling exists anywhere in the scraper. -/
def getRepositoryCommits (srv : PagedServer α) : List α :=
  (requestPage srv 0).1

/-- Cursor-following loop for `fetchPaginatedSpec`; `fuel` bounds the
number of page requests (the cursor strictly increases, so
`srv.pages.length` requests suffice). -/
def fetchPaginatedGo (srv : PagedServer α) : ℕ → ℕ → List α
  | _, 0 => []
  | cursor, fuel + 1 =>
      (requestPage srv cursor).1 ++
        (match (requestPage srv cursor).2 with
         | some c => fetchPaginatedGo srv c fuel
         | none => [])

/-- Modelled from the spec: `fetch_paginated` (spec §4.2), which the
source does not implement — "repeatedly requests `path` ..., yields each
item of the returned array, then inspects the response's pagination
cursor ...; if present, follows it and continues; if absent, the sequence
terminates." -/
def fetchPaginatedSpec (srv : PagedServer α) : List α :=
  fetchPaginatedGo srv 0 srv.pages.length

/-- The 3-page mock response sequence of spec §8: pages of sizes 100, 100
and 37, then no "next" link. -/
def threePageServer : PagedServer ℕ :=
  ⟨[List.range 100, List.range 100, List.range 37]⟩

/-! ## ClickHouse writer (`src/task3_clickhouse`) -/

/-- `task3_clickhouse/config.py` lines 5-15: the settings the writer
reads — the three table names and the insert batch size (validated
`ge=1`, default 500). -/
structure ClickHouseSettings where
  repositories_table : String
  rankings_table : String
  author_commits_table : String
  batch_size : ℕ

/-- A value appearing in an insert row: a string or a number (datetimes
are embedded as numbers). -/
inductive ChValue where
  | s (v : String)
  | n (v : ℕ)
  deriving DecidableEq

/-- The attributes `saver.py` reads off each `authors_commits_num_today`
entry (line 122-123): `author` and `commits`. -/
structure SaverAuthorEntry where
  author : String
  commits : ℕ
  deriving DecidableEq

/-- The repository shape `saver.py` itself reads (lines 90-129):
attributes `full_name`, `name`, `html_url`, `stargazers_count`,
`forks_count` and `authors_commits_num_today`.  (This is the shape the
writer assumes; the `Repository` dataclass of `models.py` declares a
different field set — see `repositoryFieldNames` and
`saverRepositoryAttrsRead`.) -/
structure SaverRepository where
  full_name : String
  name : String
  html_url : String
  stargazers_count : ℕ
  forks_count : ℕ
  authors_commits_num_today : List SaverAuthorEntry
  deriving DecidableEq

/-- The repository attribute names dereferenced by `saver.py`
lines 90-103 (`_insert_repositories`), 105-115 (`_insert_rankings`) and
117-129 (`_insert_author_commits`). -/
def saverRepositoryAttrsRead : List String :=
  ["full_name", "name", "html_url", "stargazers_count", "forks_count",
   "authors_commits_num_today"]

/-- The author-entry attribute names dereferenced by
`_insert_author_commits` (`saver.py` lines 122-123). -/
def saverAuthorAttrsRead : List String :=
  ["author", "commits"]

/-- `saver.py` lines 22-27: the `RepositorySnapshot` dataclass. -/
structure RepositorySnapshot where
  measured_at : ℕ
  repository : SaverRepository
  position : ℕ
  deriving DecidableEq

/-- `saver.py` lines 77-84: `enumerate(repositories, start=1)` wrapped
into snapshots carrying the measurement timestamp and the 1-based
position. -/
def saveSnapshots (repos : List SaverRepository) (measuredAt : ℕ) : List RepositorySnapshot :=
  (List.enumFrom 1 repos).map (fun p => ⟨measuredAt, p.2, p.1⟩)

/-- One repository-facts row (`saver.py` lines 91-101):
`(measured_at, full_name, name, html_url, stargazers_count, forks_count)`. -/
def repositoryRow (s : RepositorySnapshot) : List ChValue :=
  [.n s.measured_at, .s s.repository.full_name, .s s.repository.name,
   .s s.repository.html_url, .n s.repository.stargazers_count,
   .n s.repository.forks_count]

/-- One ranking row (`saver.py` lines 106-113):
`(measured_at, full_name, position)`. -/
def rankingRow (s : RepositorySnapshot) : List ChValue :=
  [.n s.measured_at, .s s.repository.full_name, .n s.position]

/-- The author-commit rows of one snapshot (`saver.py` lines 118-127):
`(measured_at, full_name, author, commits)` per author entry. -/
def authorCommitRows (s : RepositorySnapshot) : List (List ChValue) :=
  s.repository.authors_commits_num_today.map
    (fun a => [.n s.measured_at, .s s.repository.full_name, .s a.author, .n a.commits])

/-- The chunking loop of `_insert_with_batches`
(`saver.py` lines 141-145): `islice` the iterator `b` rows at a time and
stop at the first empty batch; `fuel` bounds the iterations
(`rows.length` suffices, since a non-empty batch consumes at least one
row, and with `b = 0` the very first batch is already empty). -/
def listBatchesGo (b : ℕ) : ℕ → List α → List (List α)
  | 0, _ => []
  | fuel + 1, rows =>
      if (rows.take b).isEmpty then []
      else rows.take b :: listBatchesGo b fuel (rows.drop b)

/-- The list of batches `_insert_with_batches` carves the row stream
into. -/
def listBatches (b : ℕ) (rows : List α) : List (List α) :=
  listBatchesGo b rows.length rows

/-- One insert call submitted to the ClickHouse client: the target table
and the rows of the chunk. -/
structure InsertCall (ρ : Type) where
  table : String
  rows : List ρ
  deriving DecidableEq

/-- The insert loop of `_insert_with_batches` (`saver.py` lines 142-150)
run over a batch list, with `fails tbl i` an oracle saying whether the
`i`-th insert call to table `tbl` raises.  Returns the calls committed
before any failure, and `some` of the `ClickHouseSaverError` message
(`"Failed to insert data into <table>"`) if a call failed — after which
no further insert is issued. -/
def runBatches (fails : String → ℕ → Bool) (table : String) :
    List (List ρ) → ℕ → List (InsertCall ρ) × Option String
  | [], _ => ([], none)
  | batch :: rest, i =>
      if fails table i then
        ([], some ("Failed to insert data into " ++ table))
      else
        let r := runBatches fails table rest (i + 1)
        (⟨table, batch⟩ :: r.1, r.2)

/-- `saver.py` lines 68-88 (`save_top_repositories`): return immediately
on an empty list; otherwise build the snapshots and write the three row
streams sequentially — repository facts, then rankings, then
author-commit facts — each through `_insert_with_batches`.  A raised
`ClickHouseSaverError` aborts the remaining streams; calls already made
stay committed. -/
def saveTopRepositories (st : ClickHouseSettings) (fails : String → ℕ → Bool)
    (repos : List SaverRepository) (measuredAt : ℕ) :
    List (InsertCall (List ChValue)) × Option String :=
  if repos.isEmpty then ([], none)
  else
    let snapshots := saveSnapshots repos measuredAt
    let r1 := runBatches fails st.repositories_table
      (listBatches st.batch_size (snapshots.map repositoryRow)) 0
    match r1.2 with
    | some e => (r1.1, some e)
    | none =>
        let r2 := runBatches fails st.rankings_table
          (listBatches st.batch_size (snapshots.map rankingRow)) 0
        match r2.2 with
        | some e => (r1.1 ++ r2.1, some e)
        | none =>
            let r3 := runBatches fails st.author_commits_table
              (listBatches st.batch_size ((snapshots.map authorCommitRows).flatten)) 0
            (r1.1 ++ r2.1 ++ r3.1, r3.2)

/-! ## Helper lemmas -/

/-- With enough fuel, the cursor-following loop started at `cursor`
yields the concatenation of the pages from `cursor` on. -/
theorem fetchPaginatedGo_flatten (srv : PagedServer α) :
    ∀ (fuel cursor : ℕ), srv.pages.length - cursor ≤ fuel → cursor ≤ srv.pages.length →
      fetchPaginatedGo srv cursor fuel = (srv.pages.drop cursor).flatten := by
  intro fuel
  induction fuel with
  | zero =>
      intro cursor h1 h2
      have hc : cursor = srv.pages.length := by omega
      simp [fetchPaginatedGo, hc]
  | succ fuel ih =>
      intro cursor h1 h2
      by_cases hlt : cursor + 1 < srv.pages.length
      · have hcur : cursor < srv.pages.length := by omega
        rw [fetchPaginatedGo]
        simp only [requestPage, if_pos hlt]
        rw [ih (cursor + 1) (by omega) (by omega)]
        rw [List.drop_eq_getElem_cons hcur, List.flatten_cons,
          List.getD_eq_getElem srv.pages [] hcur]
      · by_cases hcur : cursor < srv.pages.length
        · have hlen : srv.pages.length = cursor + 1 := by omega
          rw [fetchPaginatedGo]
          simp only [requestPage, if_neg hlt]
          rw [List.drop_eq_getElem_cons hcur, List.getD_eq_getElem srv.pages [] hcur]
          have : srv.pages.drop (cursor + 1) = [] := by
            apply List.drop_eq_nil_of_le; omega
          simp [this]
        · have hc : cursor = srv.pages.length := by omega
          rw [fetchPaginatedGo]
          simp [requestPage, hc, List.getD_eq_default, List.drop_eq_nil_of_le]

/-- The chunking loop's result does not depend on the fuel, as long as
the fuel is at least the number of remaining rows. -/
theorem listBatchesGo_fuel (b : ℕ) :
    ∀ (f1 f2 : ℕ) (rows : List α), rows.length ≤ f1 → rows.length ≤ f2 →
      listBatchesGo b f1 rows = listBatchesGo b f2 rows := by
  intro f1
  induction f1 with
  | zero =>
      intro f2 rows h1 h2
      have hr : rows = [] := List.eq_nil_of_length_eq_zero (by omega)
      subst hr
      cases f2 <;> simp [listBatchesGo]
  | succ f1 ih =>
      intro f2 rows h1 h2
      cases f2 with
      | zero =>
          have hr : rows = [] := List.eq_nil_of_length_eq_zero (by omega)
          subst hr
          simp [listBatchesGo]
      | succ f2 =>
          rw [listBatchesGo, listBatchesGo]
          by_cases he : (rows.take b).isEmpty
          · simp [he]
          · simp only [he, if_neg]
            have hne : rows.take b ≠ [] := by
              intro hc; exact he (by simp [hc])
            have hb0 : b ≠ 0 ∧ rows ≠ [] := by
              constructor <;> intro hc <;> exact hne (by simp [hc, List.take_eq_nil_iff])
            have hlen : 0 < rows.length := List.length_pos.mpr hb0.2
            rw [ih f2 (rows.drop b) (by simp; omega) (by simp; omega)]

/-- Chunking an empty stream yields no batches. -/
theorem listBatches_nil (b : ℕ) : listBatches b ([] : List α) = [] := rfl

/-- For a positive batch size and a non-empty stream, the first batch is
the first `b` rows and the rest is the chunking of the remaining rows. -/
theorem listBatches_cons (b : ℕ) (rows : List α) (hb : b ≠ 0) (hr : rows ≠ []) :
    listBatches b rows = rows.take b :: listBatches b (rows.drop b) := by
  have hlen : 0 < rows.length := List.length_pos.mpr hr
  rw [listBatches, listBatches]
  cases hn : rows.length with
  | zero => omega
  | succ n =>
      rw [listBatchesGo]
      have hne : ¬(rows.take b).isEmpty := by
        simp [List.isEmpty_iff, List.take_eq_nil_iff, hb, hr]
      simp only [hne, if_neg, if_false, Bool.false_eq_true, not_false_eq_true]
      rw [listBatchesGo_fuel b n (rows.drop b).length (rows.drop b) (by simp; omega) le_rfl]

/-- Rejoining the batches restores the row stream. -/
theorem listBatches_flatten (b : ℕ) (hb : 1 ≤ b) (rows : List α) :
    (listBatches b rows).flatten = rows := by
  suffices h : ∀ (n : ℕ) (rows : List α), rows.length ≤ n →
      (listBatches b rows).flatten = rows from h rows.length rows le_rfl
  intro n
  induction n with
  | zero =>
      intro rows h
      have hr : rows = [] := List.eq_nil_of_length_eq_zero (by omega)
      subst hr; rfl
  | succ n ih =>
      intro rows h
      by_cases hr : rows = []
      · subst hr; rfl
      · have hlen : 0 < rows.length := List.length_pos.mpr hr
        rw [listBatches_cons b rows (by omega) hr, List.flatten_cons,
          ih (rows.drop b) (by simp; omega)]
        exact List.take_append_drop b rows

/-- The number of batches is the ceiling of rows over batch size. -/
theorem listBatches_length (b : ℕ) (hb : 1 ≤ b) (rows : List α) :
    (listBatches b rows).length = (rows.length + b - 1) / b := by
  suffices h : ∀ (n : ℕ) (rows : List α), rows.length ≤ n →
      (listBatches b rows).length = (rows.length + b - 1) / b from h rows.length rows le_rfl
  intro n
  induction n with
  | zero =>
      intro rows h
      have hr : rows = [] := List.eq_nil_of_length_eq_zero (by omega)
      subst hr
      simp [listBatches_nil, Nat.div_eq_of_lt (show b - 1 < b by omega)]
  | succ n ih =>
      intro rows h
      by_cases hr : rows = []
      · subst hr
        simp [listBatches_nil, Nat.div_eq_of_lt (show b - 1 < b by omega)]
      · have hlen : 0 < rows.length := List.length_pos.mpr hr
        rw [listBatches_cons b rows (by omega) hr, List.length_cons,
          ih (rows.drop b) (by simp; omega)]
        simp only [List.length_drop]
        rcases Nat.lt_or_ge rows.length b with hlt | hge
        · have h1 : rows.length - b = 0 := by omega
          have h2 : (rows.length + b - 1) / b = 1 := Nat.div_eq_of_lt_le (by omega) (by omega)
          rw [h1, Nat.div_eq_of_lt (show 0 + b - 1 < b by omega), h2]
        · have h1 : rows.length - b + b - 1 + b = rows.length + b - 1 := by omega
          rw [← h1, Nat.add_div_right _ (by omega)]

/-- Every batch except the last has exactly `b` rows, and the last batch
has `rows.length % b` rows when `b` does not divide the stream (and `b`
rows when it does). -/
theorem listBatches_sizes (b : ℕ) (hb : 1 ≤ b) (rows : List α) :
    (∀ c ∈ (listBatches b rows).dropLast, c.length = b) ∧
    (∀ c, (listBatches b rows).getLast? = some c →
        c.length = if rows.length % b = 0 then b else rows.length % b) := by
  suffices h : ∀ (n : ℕ) (rows : List α), rows.length ≤ n →
      (∀ c ∈ (listBatches b rows).dropLast, c.length = b) ∧
      (∀ c, (listBatches b rows).getLast? = some c →
          c.length = if rows.length % b = 0 then b else rows.length % b) from
    h rows.length rows le_rfl
  intro n
  induction n with
  | zero =>
      intro rows h
      have hr : rows = [] := List.eq_nil_of_length_eq_zero (by omega)
      subst hr
      exact ⟨by simp [listBatches_nil], by simp [listBatches_nil]⟩
  | succ n ih =>
      intro rows h
      by_cases hr : rows = []
      · subst hr
        exact ⟨by simp [listBatches_nil], by simp [listBatches_nil]⟩
      · have hlen : 0 < rows.length := List.length_pos.mpr hr
        rw [listBatches_cons b rows (by omega) hr]
        by_cases hd : rows.drop b = []
        · have hle : rows.length ≤ b := by
            have h2 := congrArg List.length hd
            rw [List.length_drop] at h2
            simp at h2
            omega
          rw [hd, listBatches_nil]
          refine ⟨by simp, ?_⟩
          intro c hc
          simp only [List.getLast?_cons, List.getLast?_nil, Option.getD_none,
            Option.some.injEq] at hc
          subst hc
          rw [List.length_take]
          rcases Nat.lt_or_ge rows.length b with hlt | hge
          · rw [Nat.min_eq_right (by omega), Nat.mod_eq_of_lt hlt, if_neg (by omega)]
          · have heq : rows.length = b := by omega
            rw [heq]
            simp
        · have hgt : b < rows.length := by
            have h2 := List.length_pos.mpr hd
            rw [List.length_drop] at h2
            omega
          have hih := ih (rows.drop b) (by simp; omega)
          obtain ⟨r0, rest', hrest⟩ := List.exists_cons_of_ne_nil
            (show listBatches b (rows.drop b) ≠ [] by
              rw [listBatches_cons b (rows.drop b) (by omega) hd]
              exact List.cons_ne_nil _ _)
          constructor
          · intro c hc
            rw [hrest, List.dropLast_cons₂] at hc
            rcases List.mem_cons.mp hc with hc | hc
            · subst hc
              rw [List.length_take]
              omega
            · exact hih.1 c (by rw [hrest]; exact hc)
          · intro c hc
            rw [hrest, List.getLast?_cons_cons, ← hrest] at hc
            have := hih.2 c hc
            rw [List.length_drop] at this
            have hmod : (rows.length - b) % b = rows.length % b := by
              conv_rhs => rw [← Nat.sub_add_cancel (show b ≤ rows.length by omega)]
              rw [Nat.add_mod_right]
            rw [hmod] at this
            exact this

/-- When no insert call fails, the insert loop submits one call per batch
in order and reports no error. -/
theorem runBatches_success (fails : String → ℕ → Bool) (tbl : String)
    (h : ∀ i, fails tbl i = false) :
    ∀ (bs : List (List ρ)) (i : ℕ),
      runBatches fails tbl bs i = (bs.map (fun r => ⟨tbl, r⟩), none) := by
  intro bs
  induction bs with
  | nil => intro i; rfl
  | cons batch rest ih =>
      intro i
      rw [runBatches, if_neg (by rw [h i]; exact Bool.false_ne_true), ih (i + 1)]
      rfl

/-- When none of the calls actually issued for the batch list fails, the
insert loop submits one call per batch in order and reports no error
(the oracle is unconstrained beyond the issued calls). -/
theorem runBatches_success_upto (fails : String → ℕ → Bool) (tbl : String) :
    ∀ (bs : List (List ρ)) (i : ℕ), (∀ k < bs.length, fails tbl (i + k) = false) →
      runBatches fails tbl bs i = (bs.map (fun r => ⟨tbl, r⟩), none) := by
  intro bs
  induction bs with
  | nil => intro i _; rfl
  | cons batch rest ih =>
      intro i h
      have h0 : fails tbl i = false := by simpa using h 0 (by simp)
      have h2 : ∀ k < rest.length, fails tbl (i + 1 + k) = false := by
        intro k hk
        rw [show i + 1 + k = i + (k + 1) by omega]
        exact h (k + 1) (by simpa using hk)
      rw [runBatches, if_neg (by rw [h0]; exact Bool.false_ne_true), ih (i + 1) h2]
      rfl

/-- When the first failing call to the table is its `j`-th one, the
insert loop commits exactly the first `j` batches and stops with the
storage error naming the table. -/
theorem runBatches_failure (fails : String → ℕ → Bool) (tbl : String) :
    ∀ (bs : List (List ρ)) (i j : ℕ), j < bs.length →
      fails tbl (i + j) = true → (∀ k < j, fails tbl (i + k) = false) →
      runBatches fails tbl bs i =
        ((bs.take j).map (fun r => ⟨tbl, r⟩),
         some ("Failed to insert data into " ++ tbl)) := by
  intro bs
  induction bs with
  | nil => intro i j hj _ _; simp at hj
  | cons batch rest ih =>
      intro i j hj hfail hbefore
      cases j with
      | zero =>
          rw [runBatches, if_pos (by simpa using hfail)]
          simp
      | succ j =>
          have h0 : fails tbl i = false := by simpa using hbefore 0 (by omega)
          have hfail2 : fails tbl (i + 1 + j) = true := by
            rw [show i + 1 + j = i + (j + 1) by omega]
            exact hfail
          have hbefore2 : ∀ k < j, fails tbl (i + 1 + k) = false := by
            intro k hk
            rw [show i + 1 + k = i + (k + 1) by omega]
            exact hbefore (k + 1) (by omega)
          rw [runBatches, if_neg (by rw [h0]; exact Bool.false_ne_true),
            ih (i + 1) j (by simpa using hj) hfail2 hbefore2]
          simp

/-! ## Claim theorems -/

/-- C1 (counterexample): on the spec's own 3-page mock response sequence
(pages of sizes 100, 100 and 37), the code's commit-history fetch
(`_get_repository_commits`) yields the 100 items of the first page, not
the 237 items of all pages: it issues a single request and never follows
the server's "next" cursor.  (A spec-faithful cursor-following fetch
would yield 237.) -/
theorem c1_pagination_counterexample :
    (getRepositoryCommits threePageServer).length = 100 ∧
    (fetchPaginatedSpec threePageServer).length = 237 ∧ (100 : ℕ) ≠ 237 := by
  refine ⟨?_, ?_, by decide⟩
  · simp [getRepositoryCommits, requestPage, threePageServer]
  · set_option maxRecDepth 4000 in decide

/-- C1 (amended): the commit-history fetch issues exactly one page
request and yields that first page's items in order; it follows no
pagination cursor, so its result is only the first-page prefix of what
the spec's cursor-following `fetch_paginated` (here `fetchPaginatedSpec`,
modelled from the spec) would yield — on the 3-page mock sequence, the
100 items of page one rather than all 237. -/
theorem c1_pagination_amended :
    (∀ (α : Type) (srv : PagedServer α),
        fetchPaginatedSpec srv = srv.pages.flatten ∧
        fetchPaginatedSpec srv = getRepositoryCommits srv ++ (srv.pages.drop 1).flatten) ∧
    getRepositoryCommits threePageServer = List.range 100 := by
  refine ⟨fun α srv => ⟨?_, ?_⟩, ?_⟩
  · rw [fetchPaginatedSpec, fetchPaginatedGo_flatten srv srv.pages.length 0 (by omega) (by omega)]
    simp
  · rw [fetchPaginatedSpec, fetchPaginatedGo_flatten srv srv.pages.length 0 (by omega) (by omega)]
    cases h : srv.pages with
    | nil => simp [getRepositoryCommits, requestPage, h]
    | cons p rest => simp [getRepositoryCommits, requestPage, h]
  · simp [getRepositoryCommits, requestPage, threePageServer]

/-- C2: the writer's repository-facts rows are built by reading the
attributes `full_name`, `html_url`, `stargazers_count` and `forks_count`
(and `commits` on each author entry) off the records handed to it —
but the `Repository` dataclass of `models.py` (a `slots=True` dataclass,
whose instances expose exactly its declared fields) declares none of
those attributes, so the write raises `AttributeError` instead of
emitting the claimed rows. -/
theorem c2_missing_attributes :
    ("full_name" ∈ saverRepositoryAttrsRead ∧ "full_name" ∉ repositoryFieldNames) ∧
    ("html_url" ∈ saverRepositoryAttrsRead ∧ "html_url" ∉ repositoryFieldNames) ∧
    ("stargazers_count" ∈ saverRepositoryAttrsRead ∧ "stargazers_count" ∉ repositoryFieldNames) ∧
    ("forks_count" ∈ saverRepositoryAttrsRead ∧ "forks_count" ∉ repositoryFieldNames) ∧
    ("commits" ∈ saverAuthorAttrsRead ∧ "commits" ∉ authorCommitsFieldNames) := by
  decide

/-- C5: author resolution follows the precedence platform login (if
truthy), else raw author display name (if truthy), else raw author
email; and on the spec's four-commit example the aggregation counts
"alice", "Bob" and "c@x.com" once each while the identity-less fourth
commit contributes nothing. -/
theorem c5_author_resolution :
    (∀ (c : CommitRecord) (u : CommitUser) (l : String),
        c.author = some u → u.login = some l → l ≠ "" → extractAuthor c = some l) ∧
    (∀ (c : CommitRecord) (n : String),
        strTruthy (c.author.getD { login := none }).login = false →
        c.commit_author.name = some n → n ≠ "" → extractAuthor c = some n) ∧
    (∀ c : CommitRecord,
        strTruthy (c.author.getD { login := none }).login = false →
        strTruthy c.commit_author.name = false →
        extractAuthor c = c.commit_author.email) ∧
    aggregateCommits
        [⟨some ⟨some "alice"⟩, ⟨none, none⟩⟩, ⟨none, ⟨some "Bob", none⟩⟩,
         ⟨none, ⟨none, some "c@x.com"⟩⟩, ⟨none, ⟨none, none⟩⟩] =
      [⟨"alice", 1⟩, ⟨"Bob", 1⟩, ⟨"c@x.com", 1⟩] := by
  refine ⟨?_, ?_, ?_, by decide⟩
  · intro c u l hc hl hne
    simp [extractAuthor, hc, hl, strTruthy, hne]
  · intro c n hlogin hn hne
    simp only [extractAuthor, hlogin]
    simp [hn, strTruthy, hne]
  · intro c hlogin hname
    simp [extractAuthor, hlogin, hname]

/-- C5 witness: the precedence clauses applied to the three crediting
commits of the spec's example. -/
theorem c5_author_resolution_witness :
    extractAuthor ⟨some ⟨some "alice"⟩, ⟨none, none⟩⟩ = some "alice" ∧
    extractAuthor ⟨none, ⟨some "Bob", none⟩⟩ = some "Bob" ∧
    extractAuthor ⟨none, ⟨none, some "c@x.com"⟩⟩ = some "c@x.com" :=
  ⟨c5_author_resolution.1 _ ⟨some "alice"⟩ "alice" rfl rfl (by decide),
   c5_author_resolution.2.1 _ "Bob" rfl rfl (by decide),
   c5_author_resolution.2.2.1 _ rfl rfl⟩

/-- C9: an empty-string platform login is treated exactly like an absent
one, an empty display name falls through to the email, and a commit all
of whose author fields are empty or missing is credited to nobody:
prepending it to any commit sequence leaves the aggregation output
unchanged. -/
theorem c9_empty_string_fallback :
    (∀ ca : CommitAuthorInfo,
        extractAuthor ⟨some ⟨some ""⟩, ca⟩ = extractAuthor ⟨none, ca⟩) ∧
    (∀ (a : Option CommitUser) (e : Option String),
        extractAuthor ⟨a, ⟨some "", e⟩⟩ = extractAuthor ⟨a, ⟨none, e⟩⟩) ∧
    extractAuthor ⟨none, ⟨none, none⟩⟩ = none ∧
    strTruthy (extractAuthor ⟨some ⟨some ""⟩, ⟨some "", some ""⟩⟩) = false ∧
    (∀ cs : List CommitRecord,
        aggregateCommits (⟨some ⟨some ""⟩, ⟨some "", some ""⟩⟩ :: cs) = aggregateCommits cs) ∧
    (∀ cs : List CommitRecord,
        aggregateCommits (⟨none, ⟨none, none⟩⟩ :: cs) = aggregateCommits cs) := by
  refine ⟨fun ca => rfl, ?_, rfl, rfl, ?_, ?_⟩
  · intro a e
    simp only [extractAuthor]
    cases h : strTruthy (a.getD { login := none }).login <;> simp [h, strTruthy]
  · intro cs
    have h : countStep [] ⟨some ⟨some ""⟩, ⟨some "", some ""⟩⟩ = [] := rfl
    simp [aggregateCommits, countAuthors, h]
  · intro cs
    have h : countStep [] ⟨none, ⟨none, none⟩⟩ = [] := rfl
    simp [aggregateCommits, countAuthors, h]

/-- C6 (counterexample): the `Repository` dataclass of `models.py` does
store a `position` field on the record itself (set by the scraper at
fetch time), contrary to the claim that position is not stored on the
record. -/
theorem c6_position_counterexample :
    (Repository.mk "cpython" "python" 5 1 2 3 "Python" []).position = 5 := rfl

/-- C6 (amended): each ranking row's position equals the repository's
1-based index in the input list handed to the writer, so the written
positions form the dense sequence 1..N in input order, assigned at write
time from `enumerate(..., start=1)`; the `Repository` record does carry
its own `position` field, but the writer never reads it. -/
theorem c6_position_amended :
    ∀ (repos : List SaverRepository) (t : ℕ),
      (saveSnapshots repos t).map RepositorySnapshot.position = List.range' 1 repos.length ∧
      ((saveSnapshots repos t).map rankingRow).map (fun r => r.getD 2 (.n 0)) =
        (List.range' 1 repos.length).map ChValue.n := by
  intro repos t
  have h1 : (saveSnapshots repos t).map RepositorySnapshot.position =
      List.range' 1 repos.length := by
    rw [saveSnapshots, List.map_map]
    have : (RepositorySnapshot.position ∘ fun p : ℕ × SaverRepository =>
        (⟨t, p.2, p.1⟩ : RepositorySnapshot)) = Prod.fst := rfl
    rw [this, List.enumFrom_map_fst]
  refine ⟨h1, ?_⟩
  rw [List.map_map]
  have h2 : ((fun r : List ChValue => r.getD 2 (.n 0)) ∘ rankingRow) =
      (ChValue.n ∘ RepositorySnapshot.position) := rfl
  rw [h2, ← List.map_map, h1]

/-- C7 (counterexample): a 201 response is not re-raised as a domain
error — `raise_for_status` only raises for statuses ≥ 400 — so a non-200
success status is returned as a parsed body, contrary to the claim that
every non-200 response becomes a domain error. -/
theorem c7_status_counterexample :
    makeRequest "GET" "https://api.github.com/x"
        (HttpAttemptResult.response 201 "Created" (0 : ℕ)) = Except.ok 0 ∧
    (201 : ℕ) ≠ 200 :=
  ⟨rfl, by decide⟩

/-- C7 (amended): every response with status ≥ 400 is re-raised as a
domain error carrying that status, every transport-level failure is
re-raised as a "network error" domain error, and those are the only
failure modes — a request fails only when its status is ≥ 400, so no raw
transport or library exception escapes the client. -/
theorem c7_status_amended :
    ∀ (α : Type) (method url : String) (status : ℕ) (message : String) (body : α)
      (tmsg : String),
      (400 ≤ status → ∃ emsg,
          makeRequest method url (.response status message body) =
            .error (.statusError status emsg)) ∧
      (makeRequest method url (.response status message body) ≠ .ok body → 400 ≤ status) ∧
      (∃ emsg, makeRequest method url (.transportFailure tmsg : HttpAttemptResult α) =
          .error (.networkError emsg)) := by
  intro α method url status message body tmsg
  refine ⟨?_, ?_, ⟨_, rfl⟩⟩
  · intro h
    refine ⟨method ++ " " ++ url ++ " failed with status " ++ toString status ++ ": " ++
      (if message = "" then "GitHub API request failed" else message), ?_⟩
    simp [makeRequest, h]
  · intro hne
    by_contra h
    exact hne (by simp [makeRequest, h])

/-- C7 witness: the amended theorem applied at a 404 response and a
transport failure. -/
theorem c7_status_amended_witness :
    (∃ emsg, makeRequest "GET" "repos/a/b" (HttpAttemptResult.response 404 "Not Found" (0 : ℕ)) =
        .error (.statusError 404 emsg)) ∧
    (400 : ℕ) ≤ 404 ∧
    (∃ emsg, makeRequest "GET" "repos/a/b" (HttpAttemptResult.transportFailure "boom" :
        HttpAttemptResult ℕ) = .error (.networkError emsg)) :=
  ⟨(c7_status_amended ℕ "GET" "repos/a/b" 404 "Not Found" 0 "boom").1 (by decide),
   (c7_status_amended ℕ "GET" "repos/a/b" 404 "Not Found" 0 "boom").2.1
     (fun h => Except.noConfusion h),
   (c7_status_amended ℕ "GET" "repos/a/b" 404 "Not Found" 0 "boom").2.2⟩

/-- C3: for every row stream of `n` rows and every batch size `b ≥ 1`,
the writer carves the stream into exactly `⌈n/b⌉` insert calls — every
chunk has `b` rows except the final one, which has `n mod b` rows when
`b` does not divide `n` — the chunks rejoin to the stream (so no chunk
spans two tables: each call is built from one table's stream alone), and
writing an empty repository list issues zero insert calls. -/
theorem c3_batching :
    ∀ (α : Type) (b : ℕ), 1 ≤ b → ∀ (rows : List α),
      (listBatches b rows).length = (rows.length + b - 1) / b ∧
      (∀ c ∈ (listBatches b rows).dropLast, c.length = b) ∧
      (∀ c, (listBatches b rows).getLast? = some c →
          c.length = if rows.length % b = 0 then b else rows.length % b) ∧
      (listBatches b rows).flatten = rows ∧
      (∀ tbl : String,
          runBatches (fun _ _ => false) tbl (listBatches b rows) 0 =
            ((listBatches b rows).map (fun r => ⟨tbl, r⟩), none)) ∧
      (∀ (st : ClickHouseSettings) (fails : String → ℕ → Bool) (t : ℕ),
          saveTopRepositories st fails [] t = ([], none)) := by
  intro α b hb rows
  refine ⟨listBatches_length b hb rows, (listBatches_sizes b hb rows).1,
    (listBatches_sizes b hb rows).2, listBatches_flatten b hb rows, ?_, ?_⟩
  · intro tbl
    exact runBatches_success (fun _ _ => false) tbl (fun _ => rfl) _ 0
  · intro st fails t
    rfl

/-- C3 witness: five rows with batch size 2 give three batches of sizes
2, 2 and 1 that rejoin to the stream, and an empty repository list
issues zero insert calls. -/
theorem c3_batching_witness :
    (listBatches 2 [0, 1, 2, 3, 4]).length = (5 + 2 - 1) / 2 ∧
    (listBatches 2 [0, 1, 2, 3, 4]).flatten = [0, 1, 2, 3, 4] ∧
    ([4] : List ℕ).length = (if (5 : ℕ) % 2 = 0 then 2 else 5 % 2) ∧
    saveTopRepositories ⟨"repo_t", "rank_t", "auth_t", 2⟩ (fun _ _ => false) [] 7 =
      ([], none) :=
  ⟨(c3_batching ℕ 2 (by decide) [0, 1, 2, 3, 4]).1,
   (c3_batching ℕ 2 (by decide) [0, 1, 2, 3, 4]).2.2.2.1,
   (c3_batching ℕ 2 (by decide) [0, 1, 2, 3, 4]).2.2.1 [4] (by decide),
   (c3_batching ℕ 2 (by decide) [0, 1, 2, 3, 4]).2.2.2.2.2
     ⟨"repo_t", "rank_t", "auth_t", 2⟩ (fun _ _ => false) 7⟩

/-- C4: whenever an individual chunk insert fails — whichever of the
three tables (written sequentially in the fixed order repository facts,
rankings, author-commit facts) its stream belongs to — the write
operation stops with the storage error naming that chunk's table, having
committed exactly the chunks issued before it: the preceding chunks of
the failing table's own stream and every chunk of the earlier tables;
nothing is rolled back and no later insert is issued.  Each conjunct
covers a first failure at chunk `j` of one table, with all calls
actually issued for the earlier tables succeeding. -/
theorem c4_failure_isolation :
    ∀ (st : ClickHouseSettings) (fails : String → ℕ → Bool)
      (repos : List SaverRepository) (t j : ℕ),
      repos ≠ [] →
      ((j < (listBatches st.batch_size ((saveSnapshots repos t).map repositoryRow)).length →
        fails st.repositories_table j = true →
        (∀ k < j, fails st.repositories_table k = false) →
        saveTopRepositories st fails repos t =
          (((listBatches st.batch_size ((saveSnapshots repos t).map repositoryRow)).take j).map
              (fun r => ⟨st.repositories_table, r⟩),
           some ("Failed to insert data into " ++ st.repositories_table))) ∧
      ((∀ i < (listBatches st.batch_size ((saveSnapshots repos t).map repositoryRow)).length,
          fails st.repositories_table i = false) →
        j < (listBatches st.batch_size ((saveSnapshots repos t).map rankingRow)).length →
        fails st.rankings_table j = true →
        (∀ k < j, fails st.rankings_table k = false) →
        saveTopRepositories st fails repos t =
          ((listBatches st.batch_size ((saveSnapshots repos t).map repositoryRow)).map
              (fun r => ⟨st.repositories_table, r⟩) ++
            ((listBatches st.batch_size ((saveSnapshots repos t).map rankingRow)).take j).map
              (fun r => ⟨st.rankings_table, r⟩),
           some ("Failed to insert data into " ++ st.rankings_table))) ∧
      ((∀ i < (listBatches st.batch_size ((saveSnapshots repos t).map repositoryRow)).length,
          fails st.repositories_table i = false) →
        (∀ i < (listBatches st.batch_size ((saveSnapshots repos t).map rankingRow)).length,
          fails st.rankings_table i = false) →
        j < (listBatches st.batch_size
              (((saveSnapshots repos t).map authorCommitRows).flatten)).length →
        fails st.author_commits_table j = true →
        (∀ k < j, fails st.author_commits_table k = false) →
        saveTopRepositories st fails repos t =
          ((listBatches st.batch_size ((saveSnapshots repos t).map repositoryRow)).map
              (fun r => ⟨st.repositories_table, r⟩) ++
            (listBatches st.batch_size ((saveSnapshots repos t).map rankingRow)).map
              (fun r => ⟨st.rankings_table, r⟩) ++
            ((listBatches st.batch_size
                (((saveSnapshots repos t).map authorCommitRows).flatten)).take j).map
              (fun r => ⟨st.author_commits_table, r⟩),
           some ("Failed to insert data into " ++ st.author_commits_table)))) := by
  intro st fails repos t j hne
  refine ⟨?_, ?_, ?_⟩
  · intro hj hfail hbefore
    have h1 := runBatches_failure fails st.repositories_table
      (listBatches st.batch_size ((saveSnapshots repos t).map repositoryRow)) 0 j hj
      (by simpa using hfail) (by simpa using hbefore)
    rw [saveTopRepositories, if_neg (by simp [hne])]
    simp only [h1]
  · intro hrepo hj hfail hbefore
    have h1 := runBatches_success_upto fails st.repositories_table
      (listBatches st.batch_size ((saveSnapshots repos t).map repositoryRow)) 0
      (by intro k hk; simpa using hrepo k hk)
    have h2 := runBatches_failure fails st.rankings_table
      (listBatches st.batch_size ((saveSnapshots repos t).map rankingRow)) 0 j hj
      (by simpa using hfail) (by simpa using hbefore)
    rw [saveTopRepositories, if_neg (by simp [hne])]
    simp only [h1, h2]
  · intro hrepo hrank hj hfail hbefore
    have h1 := runBatches_success_upto fails st.repositories_table
      (listBatches st.batch_size ((saveSnapshots repos t).map repositoryRow)) 0
      (by intro k hk; simpa using hrepo k hk)
    have h2 := runBatches_success_upto fails st.rankings_table
      (listBatches st.batch_size ((saveSnapshots repos t).map rankingRow)) 0
      (by intro k hk; simpa using hrank k hk)
    have h3 := runBatches_failure fails st.author_commits_table
      (listBatches st.batch_size (((saveSnapshots repos t).map authorCommitRows).flatten)) 0 j hj
      (by simpa using hfail) (by simpa using hbefore)
    rw [saveTopRepositories, if_neg (by simp [hne])]
    simp only [h1, h2, h3]

/-- C4 witness: three repositories (the last carrying one author entry)
with batch size 2, exercising one first-failure run per table: a failing
repository-facts insert commits nothing and names that table; a failing
rankings insert leaves both repository-facts chunks committed and names
the rankings table; a failing author-commit insert leaves all
repository-facts and rankings chunks committed and names the
author-commit table. -/
theorem c4_failure_isolation_witness :
    (saveTopRepositories ⟨"repo_t", "rank_t", "auth_t", 2⟩ (fun tbl _ => tbl == "repo_t")
        [⟨"o/r1", "r1", "u1", 1, 2, []⟩, ⟨"o/r2", "r2", "u2", 3, 4, []⟩,
         ⟨"o/r3", "r3", "u3", 5, 6, [⟨"alice", 2⟩]⟩] 9 =
      ([], some ("Failed to insert data into " ++ "repo_t"))) ∧
    (saveTopRepositories ⟨"repo_t", "rank_t", "auth_t", 2⟩ (fun tbl _ => tbl == "rank_t")
        [⟨"o/r1", "r1", "u1", 1, 2, []⟩, ⟨"o/r2", "r2", "u2", 3, 4, []⟩,
         ⟨"o/r3", "r3", "u3", 5, 6, [⟨"alice", 2⟩]⟩] 9 =
      ((listBatches 2
            ((saveSnapshots [⟨"o/r1", "r1", "u1", 1, 2, []⟩, ⟨"o/r2", "r2", "u2", 3, 4, []⟩,
                ⟨"o/r3", "r3", "u3", 5, 6, [⟨"alice", 2⟩]⟩] 9).map repositoryRow)).map
          (fun r => ⟨"repo_t", r⟩) ++ [],
       some ("Failed to insert data into " ++ "rank_t"))) ∧
    (saveTopRepositories ⟨"repo_t", "rank_t", "auth_t", 2⟩ (fun tbl _ => tbl == "auth_t")
        [⟨"o/r1", "r1", "u1", 1, 2, []⟩, ⟨"o/r2", "r2", "u2", 3, 4, []⟩,
         ⟨"o/r3", "r3", "u3", 5, 6, [⟨"alice", 2⟩]⟩] 9 =
      ((listBatches 2
            ((saveSnapshots [⟨"o/r1", "r1", "u1", 1, 2, []⟩, ⟨"o/r2", "r2", "u2", 3, 4, []⟩,
                ⟨"o/r3", "r3", "u3", 5, 6, [⟨"alice", 2⟩]⟩] 9).map repositoryRow)).map
          (fun r => ⟨"repo_t", r⟩) ++
        (listBatches 2
            ((saveSnapshots [⟨"o/r1", "r1", "u1", 1, 2, []⟩, ⟨"o/r2", "r2", "u2", 3, 4, []⟩,
                ⟨"o/r3", "r3", "u3", 5, 6, [⟨"alice", 2⟩]⟩] 9).map rankingRow)).map
          (fun r => ⟨"rank_t", r⟩) ++ [],
       some ("Failed to insert data into " ++ "auth_t"))) :=
  ⟨(c4_failure_isolation ⟨"repo_t", "rank_t", "auth_t", 2⟩ (fun tbl _ => tbl == "repo_t")
      [⟨"o/r1", "r1", "u1", 1, 2, []⟩, ⟨"o/r2", "r2", "u2", 3, 4, []⟩,
       ⟨"o/r3", "r3", "u3", 5, 6, [⟨"alice", 2⟩]⟩] 9 0 (by decide)).1
     (by decide) rfl (fun k hk => absurd hk (Nat.not_lt_zero k)),
   (c4_failure_isolation ⟨"repo_t", "rank_t", "auth_t", 2⟩ (fun tbl _ => tbl == "rank_t")
      [⟨"o/r1", "r1", "u1", 1, 2, []⟩, ⟨"o/r2", "r2", "u2", 3, 4, []⟩,
       ⟨"o/r3", "r3", "u3", 5, 6, [⟨"alice", 2⟩]⟩] 9 0 (by decide)).2.1
     (fun _ _ => rfl) (by decide) rfl (fun k hk => absurd hk (Nat.not_lt_zero k)),
   (c4_failure_isolation ⟨"repo_t", "rank_t", "auth_t", 2⟩ (fun tbl _ => tbl == "auth_t")
      [⟨"o/r1", "r1", "u1", 1, 2, []⟩, ⟨"o/r2", "r2", "u2", 3, 4, []⟩,
       ⟨"o/r3", "r3", "u3", 5, 6, [⟨"alice", 2⟩]⟩] 9 0 (by decide)).2.2
     (fun _ _ => rfl) (fun _ _ => rfl) (by decide) rfl
     (fun k hk => absurd hk (Nat.not_lt_zero k))⟩

/-- On an ascending deque, the front-eviction loop removes exactly the
timestamps outside the trailing window ending at `now`. -/
theorem rlEvict_sorted (period now : ℚ) :
    ∀ (l : List ℚ), l.Pairwise (· ≤ ·) →
      rlEvict period now l = l.filter (fun t => decide (now - period < t)) := by
  intro l
  induction l with
  | nil => intro _; rfl
  | cons x rest ih =>
      intro hpw
      have hx_le : ∀ y ∈ rest, x ≤ y := (List.pairwise_cons.mp hpw).1
      have hrest : rest.Pairwise (· ≤ ·) := (List.pairwise_cons.mp hpw).2
      rw [rlEvict, List.dropWhile_cons, List.filter_cons]
      by_cases hx : period ≤ now - x
      · rw [if_pos (by simpa using hx), if_neg (by simp; linarith)]
        exact ih hrest
      · rw [if_neg (by simpa using hx), if_pos (by simp; linarith)]
        have : rest.filter (fun t => decide (now - period < t)) = rest := by
          rw [List.filter_eq_self]
          intro y hy
          have h1 : x ≤ y := hx_le y hy
          simp
          linarith
        rw [this]

/-- Re-filtering a window filter with a later window keeps only the later
window. -/
theorem filter_window_collapse (period b now : ℚ) (hbn : b ≤ now) (gs : List ℚ) :
    (gs.filter (fun g => decide (b - period < g))).filter
        (fun g => decide (now - period < g)) =
      gs.filter (fun g => decide (now - period < g)) := by
  rw [List.filter_filter]
  apply List.filter_congr
  intro g _
  by_cases h : now - period < g
  · have h2 : b - period < g := by linarith
    simp [h, h2]
  · simp [h]

/-- When every grant is at most `now`, the deque obtained by filtering to
the window ending at `now` counts exactly the grants in that window. -/
theorem filter_window_length (period now : ℚ) (gs : List ℚ)
    (hle : ∀ g ∈ gs, g ≤ now) :
    (gs.filter (fun g => decide (now - period < g))).length =
      windowCount period now gs := by
  rw [windowCount]
  congr 1
  apply List.filter_congr
  intro g hg
  have h1 : g ≤ now := hle g hg
  by_cases h : now - period < g <;> simp [h, h1]

/-- The count of grants in any window ending at `t ≥ now` is at most the
count of grants after `now - period`, provided all grants are ≤ `now`. -/
theorem windowCount_le_filter (period now t : ℚ) (gs : List ℚ) (hnt : now ≤ t) :
    windowCount period t gs ≤ (gs.filter (fun g => decide (now - period < g))).length := by
  rw [windowCount]
  apply List.Sublist.length_le
  apply List.monotone_filter_right
  intro g hg
  simp only [Bool.and_eq_true, decide_eq_true_eq] at hg
  simp
  linarith [hg.1]

/-- Invariant of the rate-limiter run: starting from a deque that is the
window filter of a sorted grant history bounded by `b`, with all windows
within the rate, every attempt sequence at non-decreasing times ≥ `b`
keeps every trailing window within the rate. -/
theorem rlRun_bound_aux (rate : ℕ) (period : ℚ) (hp : 0 < period) :
    ∀ (times : List ℚ) (d gs : List ℚ) (b : ℚ),
      times.Pairwise (· ≤ ·) → (∀ x ∈ times, b ≤ x) →
      gs.Pairwise (· ≤ ·) → (∀ g ∈ gs, g ≤ b) →
      d = gs.filter (fun g => decide (b - period < g)) →
      (∀ t, windowCount period t gs ≤ rate) →
      ∀ t, windowCount period t ((times.foldl (rlStep rate period) (d, gs)).2) ≤ rate := by
  intro times
  induction times with
  | nil =>
      intro d gs b _ _ _ _ _ hwin t
      exact hwin t
  | cons now rest ih =>
      intro d gs b htimes hmem hgs_pw hgs_le hdef hwin
      have hbn : b ≤ now := hmem now (List.mem_cons_self now rest)
      have hrest_pw : rest.Pairwise (· ≤ ·) := (List.pairwise_cons.mp htimes).2
      have hrest_ge : ∀ x ∈ rest, now ≤ x := (List.pairwise_cons.mp htimes).1
      have hd_pw : d.Pairwise (· ≤ ·) := hdef ▸ hgs_pw.filter _
      have hd1 : rlEvict period now d = gs.filter (fun g => decide (now - period < g)) := by
        rw [hdef, rlEvict_sorted period now _ (hgs_pw.filter _),
          filter_window_collapse period b now hbn gs]
      have hgs_now : ∀ g ∈ gs, g ≤ now := fun g hg => le_trans (hgs_le g hg) hbn
      have hFlen : (gs.filter (fun g => decide (now - period < g))).length =
          windowCount period now gs := filter_window_length period now gs hgs_now
      rw [List.foldl_cons]
      by_cases hgrant : (gs.filter (fun g => decide (now - period < g))).length < rate
      · have hstep : rlStep rate period (d, gs) now =
            (gs.filter (fun g => decide (now - period < g)) ++ [now], gs ++ [now]) := by
          rw [rlStep, rlAttempt, hd1, if_pos hgrant]
          rfl
        rw [hstep]
        apply ih _ (gs ++ [now]) now hrest_pw hrest_ge ?_ ?_ ?_ ?_
        · rw [List.pairwise_append]
          exact ⟨hgs_pw, List.pairwise_singleton _ _,
            fun g hg y hy => by rw [List.mem_singleton.mp hy]; exact hgs_now g hg⟩
        · intro g hg
          rcases List.mem_append.mp hg with h | h
          · exact hgs_now g h
          · rw [List.mem_singleton.mp h]
        · rw [List.filter_append]
          have hsing : ([now] : List ℚ).filter (fun g => decide (now - period < g)) = [now] := by
            rw [List.filter_eq_self]
            intro y hy
            rw [List.mem_singleton.mp hy, decide_eq_true_iff]
            linarith
          rw [hsing]
        · intro t
          rw [windowCount, List.filter_append, List.length_append, ← windowCount]
          by_cases hin : (decide (t - period < now) && decide (now ≤ t)) = true
          · simp only [Bool.and_eq_true, decide_eq_true_eq] at hin
            have h1 : windowCount period t gs ≤
                (gs.filter (fun g => decide (now - period < g))).length :=
              windowCount_le_filter period now t gs hin.2
            have h2 : (([now] : List ℚ).filter
                (fun g => decide (t - period < g) && decide (g ≤ t))).length ≤ 1 := by
              rw [List.filter_singleton]
              by_cases h : (decide (t - period < now) && decide (now ≤ t)) = true <;>
                simp [h]
            omega
          · have hsing : ([now] : List ℚ).filter
                (fun g => decide (t - period < g) && decide (g ≤ t)) = [] := by
              rw [List.filter_eq_nil_iff]
              intro y hy
              rw [List.mem_singleton.mp hy]
              simpa using hin
            rw [hsing]
            simpa using hwin t
      · have hstep : rlStep rate period (d, gs) now =
            (gs.filter (fun g => decide (now - period < g)), gs) := by
          rw [rlStep, rlAttempt, hd1, if_neg hgrant]
          rfl
        rw [hstep]
        exact ih _ gs now hrest_pw hrest_ge hgs_pw hgs_now rfl hwin

/-- C8: for every `rate ≥ 1` and `period > 0` and every sequence of
locked check-and-record attempts of `acquire()` at non-decreasing clock
readings, the number of grants recorded in any trailing window of length
`period` never exceeds `rate`: a grant happens only after evicting
timestamps older than the window and only when fewer than `rate` remain. -/
theorem c8_rate_limiter_window :
    ∀ (rate : ℕ) (period : ℚ) (times : List ℚ),
      1 ≤ rate → 0 < period → times.Pairwise (· ≤ ·) →
      ∀ t : ℚ, windowCount period t (rlRun rate period times).2 ≤ rate := by
  intro rate period times _ hp hpw t
  cases times with
  | nil => simp [rlRun, windowCount]
  | cons t0 rest =>
      rw [rlRun]
      apply rlRun_bound_aux rate period hp (t0 :: rest) [] [] t0 hpw ?_ ?_ ?_ ?_ ?_
      · intro x hx
        rcases List.mem_cons.mp hx with h | h
        · rw [h]
        · exact (List.pairwise_cons.mp hpw).1 x h
      · exact List.Pairwise.nil
      · intro g hg
        exact absurd hg (List.not_mem_nil g)
      · rfl
      · intro s
        simp [windowCount]

/-- C8 witness: three attempts at times 0, 1, 2 with rate 1 and period 1
never put more than one grant in the window ending at time 2. -/
theorem c8_rate_limiter_window_witness :
    windowCount 1 2 (rlRun 1 1 [0, 1, 2]).2 ≤ 1 :=
  c8_rate_limiter_window 1 1 [0, 1, 2] (by decide) (by decide) (by decide) 2

/-- Incrementing a key that does not occur leaves the counter unchanged. -/
theorem counterAdd_map_not_mem (a : String) :
    ∀ (acc : List (String × ℕ)), a ∉ acc.map Prod.fst →
      acc.map (fun p => if p.1 == a then (p.1, p.2 + 1) else p) = acc := by
  intro acc
  induction acc with
  | nil => intro _; rfl
  | cons q rest ih =>
      intro h
      have hq : (q.1 == a) = false := by
        simp only [beq_eq_false_iff_ne]
        intro hc
        exact h (by simp [hc])
      have hrest : a ∉ rest.map Prod.fst := fun hc => h (by simp [hc])
      rw [List.map_cons, ih hrest, if_neg (by rw [hq]; exact Bool.false_ne_true)]

/-- A counter update preserves distinctness of the keys. -/
theorem counterAdd_fst_nodup (acc : List (String × ℕ)) (a : String)
    (h : (acc.map Prod.fst).Nodup) : ((counterAdd acc a).map Prod.fst).Nodup := by
  rw [counterAdd]
  by_cases hany : acc.any (fun p => p.1 == a) = true
  · rw [if_pos hany, List.map_map]
    have heq : ((Prod.fst ∘ fun p : String × ℕ =>
        if p.1 == a then (p.1, p.2 + 1) else p)) = Prod.fst := by
      funext p
      by_cases hp : p.1 == a <;> simp [Function.comp, hp]
    rw [heq]
    exact h
  · rw [if_neg hany, List.map_append]
    rw [List.nodup_append]
    refine ⟨h, List.nodup_singleton a, ?_⟩
    intro x hx hx2
    simp only [List.map_cons, List.map_nil, List.mem_singleton] at hx2
    subst hx2
    rcases List.mem_map.mp hx with ⟨p, hp, hpa⟩
    exact hany (List.any_eq_true.mpr ⟨p, hp, by simp [hpa]⟩)

/-- A counter update keeps every count at least 1. -/
theorem counterAdd_pos (acc : List (String × ℕ)) (a : String)
    (h : ∀ p ∈ acc, 1 ≤ p.2) : ∀ p ∈ counterAdd acc a, 1 ≤ p.2 := by
  intro p hp
  rw [counterAdd] at hp
  by_cases hany : acc.any (fun p => p.1 == a) = true
  · rw [if_pos hany] at hp
    rcases List.mem_map.mp hp with ⟨q, hq, hqp⟩
    by_cases hqa : q.1 == a
    · rw [if_pos hqa] at hqp
      subst hqp
      simp
    · rw [if_neg hqa] at hqp
      subst hqp
      exact h q hq
  · rw [if_neg hany] at hp
    rcases List.mem_append.mp hp with hp | hp
    · exact h p hp
    · rw [List.mem_singleton.mp hp]

/-- Incrementing a key that occurs once raises the total count by one. -/
theorem sum_map_upd (a : String) :
    ∀ (acc : List (String × ℕ)), (acc.map Prod.fst).Nodup → a ∈ acc.map Prod.fst →
      ((acc.map (fun p => if p.1 == a then (p.1, p.2 + 1) else p)).map Prod.snd).sum =
        ((acc.map Prod.snd).sum) + 1 := by
  intro acc
  induction acc with
  | nil => intro _ h; simp at h
  | cons q rest ih =>
      intro hnd hmem
      have hnd2 := hnd
      rw [List.map_cons, List.nodup_cons] at hnd2
      by_cases hqa : q.1 = a
      · have hrest : a ∉ rest.map Prod.fst := hqa ▸ hnd2.1
        rw [List.map_cons, if_pos (by simp [hqa]), counterAdd_map_not_mem a rest hrest]
        simp
        omega
      · have hmem2 : a ∈ rest.map Prod.fst := by
          rcases List.mem_cons.mp hmem with h | h
          · exact absurd h.symm (by simpa using hqa)
          · exact h
        rw [List.map_cons, if_neg (by simp [hqa])]
        simp only [List.map_cons, List.sum_cons, ih hnd2.2 hmem2]
        omega

/-- A counter update raises the total count by exactly one. -/
theorem counterAdd_sum (acc : List (String × ℕ)) (a : String)
    (h : (acc.map Prod.fst).Nodup) :
    ((counterAdd acc a).map Prod.snd).sum = ((acc.map Prod.snd).sum) + 1 := by
  rw [counterAdd]
  by_cases hany : acc.any (fun p => p.1 == a) = true
  · rw [if_pos hany]
    rcases List.any_eq_true.mp hany with ⟨p, hp, hpa⟩
    exact sum_map_upd a acc h (List.mem_map.mpr ⟨p, hp, by simpa using hpa⟩)
  · rw [if_neg hany, List.map_append]
    simp

/-- Invariant of the counting loop: distinct keys, positive counts, and a
total equal to the number of counted commits. -/
theorem countAuthors_inv :
    ∀ (commits : List CommitRecord) (acc : List (String × ℕ)),
      (acc.map Prod.fst).Nodup → (∀ p ∈ acc, 1 ≤ p.2) →
      (((commits.foldl countStep acc).map Prod.fst).Nodup ∧
       (∀ p ∈ commits.foldl countStep acc, 1 ≤ p.2) ∧
       ((commits.foldl countStep acc).map Prod.snd).sum =
         ((acc.map Prod.snd).sum) +
           commits.countP (fun c => strTruthy (extractAuthor c))) := by
  intro commits
  induction commits with
  | nil =>
      intro acc h1 h2
      exact ⟨h1, h2, by simp⟩
  | cons c rest ih =>
      intro acc h1 h2
      rw [List.foldl_cons, List.countP_cons]
      cases hext : extractAuthor c with
      | none =>
          have hstep : countStep acc c = acc := by rw [countStep, hext]
          rw [hstep]
          have := ih acc h1 h2
          simpa [strTruthy] using this
      | some a =>
          by_cases ha : a = ""
          · have hstep : countStep acc c = acc := by
              rw [countStep, hext]
              simp [ha]
            rw [hstep]
            have hfalse : strTruthy (some a) = false := by
              rw [ha]
              rfl
            have := ih acc h1 h2
            simpa [hfalse] using this
          · have hstep : countStep acc c = counterAdd acc a := by
              rw [countStep, hext]
              simp [ha]
            rw [hstep]
            have htrue : strTruthy (some a) = true := by
              simpa [strTruthy] using ha
            have hone : (if strTruthy (some a) = true then 1 else 0) = 1 := by
              simp [htrue]
            have hi := ih (counterAdd acc a) (counterAdd_fst_nodup acc a h1)
              (counterAdd_pos acc a h2)
            refine ⟨hi.1, hi.2.1, ?_⟩
            rw [hi.2.2, counterAdd_sum acc a h1, hone]
            omega

/-- The stable insertion is a permutation step. -/
theorem insertByCount_perm : ∀ (acc : List (String × ℕ)) (p : String × ℕ),
    (insertByCount acc p).Perm (p :: acc) := by
  intro acc
  induction acc with
  | nil => intro p; exact List.Perm.refl _
  | cons q rest ih =>
      intro p
      rw [insertByCount]
      by_cases h : p.2 ≤ q.2
      · rw [if_pos h]
        exact ((ih p).cons q).trans (List.Perm.swap p q rest)
      · rw [if_neg h]

/-- `mostCommon` permutes its input. -/
theorem mostCommon_perm (l : List (String × ℕ)) : (mostCommon l).Perm l := by
  suffices h : ∀ (l acc : List (String × ℕ)), (l.foldl insertByCount acc).Perm (acc ++ l) by
    simpa using h l []
  intro l
  induction l with
  | nil => intro acc; simp
  | cons p rest ih =>
      intro acc
      rw [List.foldl_cons]
      refine ((ih (insertByCount acc p)).trans ?_)
      refine (List.Perm.append_right rest (insertByCount_perm acc p)).trans ?_
      exact List.perm_middle.symm

/-- The stable insertion preserves descending order by count. -/
theorem insertByCount_sorted :
    ∀ (acc : List (String × ℕ)) (p : String × ℕ),
      acc.Pairwise (fun x y => y.2 ≤ x.2) →
      (insertByCount acc p).Pairwise (fun x y => y.2 ≤ x.2) := by
  intro acc
  induction acc with
  | nil => intro p _; exact List.pairwise_singleton _ _
  | cons q rest ih =>
      intro p hpw
      have hq := (List.pairwise_cons.mp hpw).1
      have hrest := (List.pairwise_cons.mp hpw).2
      rw [insertByCount]
      by_cases h : p.2 ≤ q.2
      · rw [if_pos h]
        rw [List.pairwise_cons]
        refine ⟨?_, ih p hrest⟩
        intro y hy
        have hy2 : y ∈ p :: rest := (insertByCount_perm rest p).mem_iff.mp hy
        rcases List.mem_cons.mp hy2 with hym | hym
        · rw [hym]; exact h
        · exact hq y hym
      · rw [if_neg h]
        rw [List.pairwise_cons]
        refine ⟨?_, hpw⟩
        intro y hy
        rcases List.mem_cons.mp hy with hym | hym
        · rw [hym]; omega
        · have := hq y hym
          omega

/-- `mostCommon` output is descending by count. -/
theorem mostCommon_sorted (l : List (String × ℕ)) :
    (mostCommon l).Pairwise (fun x y => y.2 ≤ x.2) := by
  suffices h : ∀ (l acc : List (String × ℕ)), acc.Pairwise (fun x y => y.2 ≤ x.2) →
      (l.foldl insertByCount acc).Pairwise (fun x y => y.2 ≤ x.2) from
    h l [] List.Pairwise.nil
  intro l
  induction l with
  | nil => intro acc h; simpa using h
  | cons p rest ih =>
      intro acc h
      rw [List.foldl_cons]
      exact ih _ (insertByCount_sorted acc p h)

/-- C10: for every commit sequence, the aggregation output has pairwise
distinct authors, every commit count is at least 1, the counts sum to the
number of commits that resolved to a (truthy) identity, and the entries
are ordered by non-increasing commit count. -/
theorem c10_aggregate_invariants :
    ∀ commits : List CommitRecord,
      ((aggregateCommits commits).map (fun e => e.author)).Nodup ∧
      (∀ e ∈ aggregateCommits commits, 1 ≤ e.commits_num) ∧
      ((aggregateCommits commits).map (fun e => e.commits_num)).sum =
        (commits.filter (fun c => strTruthy (extractAuthor c))).length ∧
      (aggregateCommits commits).Pairwise
        (fun a b => b.commits_num ≤ a.commits_num) := by
  intro commits
  have hinv := countAuthors_inv commits [] (by simp) (by simp)
  have hperm : (mostCommon (countAuthors commits)).Perm (countAuthors commits) :=
    mostCommon_perm _
  refine ⟨?_, ?_, ?_, ?_⟩
  · have h1 : (aggregateCommits commits).map (fun e => e.author) =
        (mostCommon (countAuthors commits)).map Prod.fst := by
      rw [aggregateCommits, List.map_map]
      rfl
    rw [h1]
    exact ((hperm.map Prod.fst).nodup_iff).mpr hinv.1
  · intro e he
    rw [aggregateCommits] at he
    rcases List.mem_map.mp he with ⟨p, hp, hpe⟩
    have hp2 : p ∈ countAuthors commits := hperm.mem_iff.mp hp
    have hpos := hinv.2.1 p hp2
    rw [← hpe]
    exact hpos
  · have hmap : (aggregateCommits commits).map (fun e => e.commits_num) =
        (mostCommon (countAuthors commits)).map Prod.snd := by
      rw [aggregateCommits, List.map_map]
      rfl
    rw [hmap, (hperm.map Prod.snd).sum_eq]
    have h3 : ((countAuthors commits).map Prod.snd).sum =
        commits.countP (fun c => strTruthy (extractAuthor c)) := by
      have h4 := hinv.2.2
      simpa using h4
    rw [h3, List.countP_eq_length_filter]
  · rw [aggregateCommits]
    exact List.Pairwise.map _ (fun a b hab => hab) (mostCommon_sorted _)

/-- C10 witness: the invariants instantiated on two "alice" commits and
one "Bob" commit, with the membership hypothesis discharged at the
entry ("alice", 2). -/
theorem c10_aggregate_invariants_witness :
    ((aggregateCommits [⟨some ⟨some "alice"⟩, ⟨none, none⟩⟩, ⟨some ⟨some "alice"⟩, ⟨none, none⟩⟩,
        ⟨none, ⟨some "Bob", none⟩⟩]).map (fun e => e.author)).Nodup ∧
    1 ≤ (RepositoryAuthorCommitsNum.mk "alice" 2).commits_num ∧
    ((aggregateCommits [⟨some ⟨some "alice"⟩, ⟨none, none⟩⟩, ⟨some ⟨some "alice"⟩, ⟨none, none⟩⟩,
        ⟨none, ⟨some "Bob", none⟩⟩]).map (fun e => e.commits_num)).sum =
      (([⟨some ⟨some "alice"⟩, ⟨none, none⟩⟩, ⟨some ⟨some "alice"⟩, ⟨none, none⟩⟩,
        ⟨none, ⟨some "Bob", none⟩⟩] : List CommitRecord).filter
          (fun c => strTruthy (extractAuthor c))).length ∧
    (aggregateCommits [⟨some ⟨some "alice"⟩, ⟨none, none⟩⟩, ⟨some ⟨some "alice"⟩, ⟨none, none⟩⟩,
        ⟨none, ⟨some "Bob", none⟩⟩]).Pairwise
      (fun a b => b.commits_num ≤ a.commits_num) :=
  ⟨(c10_aggregate_invariants _).1,
   (c10_aggregate_invariants [⟨some ⟨some "alice"⟩, ⟨none, none⟩⟩,
      ⟨some ⟨some "alice"⟩, ⟨none, none⟩⟩, ⟨none, ⟨some "Bob", none⟩⟩]).2.1
     ⟨"alice", 2⟩ (by decide),
   (c10_aggregate_invariants _).2.2.1,
   (c10_aggregate_invariants _).2.2.2⟩
